import Mathlib

/-
Shallow embedding of the xsgen burnup-criticality orchestration core
(src/xsgen/buk.py, src/xsgen/openmc_origen.py, src/xsgen/brightlite.py).

States are namedtuples of perturbation parameters; scalar parameter values
and all numeric payloads are modelled as rationals.  The two external
physics codes (OpenMC transport, ORIGEN transmutation) are modelled as
oracle functions supplied through an `Env` record; a `none` result models
a raised subprocess failure.  Mutable attributes of the `OpenMCOrigen`
engine (`statelibs`, `rc.fuel_material`) are threaded explicitly through
an `EngineSt` record.
-/

set_option autoImplicit false

namespace Xsgen

/-- A State is a namedtuple of named scalar perturbation parameters:
`fields` are the parameter names (`_fields`), `vals` the parameter values,
indexed positionally.  For an actual namedtuple `fields.length = vals.length`;
this invariant is carried as a hypothesis where a theorem needs it. -/
structure State where
  fields : List String
  vals : List ℚ
deriving DecidableEq, Repr, Inhabited

/-- Attribute access `state.burn_times`: the value at the field named
"burn_times" (a namedtuple raises AttributeError when the field is missing;
the default 0 is never exercised by theorems about states that have the field). -/
def State.burn_times (s : State) : ℚ :=
  match (s.fields.zip s.vals).find? (fun p => decide (p.1 = "burn_times")) with
  | some p => p.2
  | none => 0

/-- The loop body of `XSGenPlugin.same_except_burnup_time` (buk.py:107-112):
for every index into state1, either the field at that index is named
"burn_times" or the two states agree on the value at that index. -/
def sameExceptBody (s1 s2 : State) : Bool :=
  (List.range s1.vals.length).all fun i =>
    decide (s1.fields.getD i "" = "burn_times") || decide (s1.vals.getD i 0 = s2.vals.getD i 0)

/-- `XSGenPlugin.same_except_burnup_time` (buk.py:92-112).  Raises ValueError
(modelled as `Except.error` with the message) when the two states have a
different number of perturbation parameters, else compares all
non-burn_times positions. -/
def same_except_burnup_time (s1 s2 : State) : Except String Bool :=
  if s1.vals.length ≠ s2.vals.length then
    Except.error "States have unequal number of perturbation paramaters."
  else
    Except.ok (sameExceptBody s1 s2)

/-- C9: the comparison errors exactly on arity mismatch. -/
theorem same_except_error_iff (s1 s2 : State) :
    (∃ msg, same_except_burnup_time s1 s2 = Except.error msg) ↔
      s1.vals.length ≠ s2.vals.length := by
  constructor
  · rintro ⟨msg, hmsg⟩
    intro hlen
    simp [same_except_burnup_time, hlen] at hmsg
  · intro hlen
    refine ⟨"States have unequal number of perturbation paramaters.", ?_⟩
    simp [same_except_burnup_time, hlen]

/-- All states produced by one design-space enumeration share one parameter
schema: the field names are a fixed list `F` and, as for any namedtuple,
there are as many values as field names. -/
def schemaOK (F : List String) (s : State) : Prop :=
  s.fields = F ∧ s.vals.length = F.length

instance schemaOK_dec (F : List String) (s : State) : Decidable (schemaOK F s) :=
  inferInstanceAs (Decidable (_ ∧ _))

/-- Pointwise characterisation of the comparison loop body. -/
theorem sameExceptBody_iff (s1 s2 : State) :
    sameExceptBody s1 s2 = true ↔
      ∀ i < s1.vals.length,
        s1.fields.getD i "" = "burn_times" ∨ s1.vals.getD i 0 = s2.vals.getD i 0 := by
  simp [sameExceptBody, List.all_eq_true, List.mem_range]

theorem sameExceptBody_refl (s : State) : sameExceptBody s s = true := by
  rw [sameExceptBody_iff]
  intro i _
  exact Or.inr rfl

theorem sameExceptBody_symm {F : List String} {s t : State}
    (hs : schemaOK F s) (ht : schemaOK F t)
    (h : sameExceptBody s t = true) : sameExceptBody t s = true := by
  rw [sameExceptBody_iff] at h ⊢
  intro i hi
  have hlen : s.vals.length = t.vals.length := by rw [hs.2, ht.2]
  have := h i (by omega)
  rcases this with hf | hv
  · left
    rw [ht.1, ← hs.1]
    exact hf
  · right
    exact hv.symm

theorem sameExceptBody_trans {F : List String} {a b c : State}
    (ha : schemaOK F a) (hb : schemaOK F b)
    (hab : sameExceptBody a b = true) (hbc : sameExceptBody b c = true) :
    sameExceptBody a c = true := by
  rw [sameExceptBody_iff] at hab hbc ⊢
  intro i hi
  have hlen : a.vals.length = b.vals.length := by rw [ha.2, hb.2]
  rcases hab i hi with hf | hv
  · exact Or.inl hf
  · rcases hbc i (by omega) with hf | hv2
    · left
      rw [ha.1, ← hb.1]
      exact hf
    · right
      exact hv.trans hv2

/-- Representative of a run: its first member (`run[0]` in the source).  Runs
built by the grouping loop are never empty. -/
def rep (r : List State) : State := r.headD default

theorem rep_mem {r : List State} (h : r ≠ []) : rep r ∈ r := by
  cases r with
  | nil => exact absurd rfl h
  | cons a l => exact List.mem_cons_self a l

theorem rep_append_singleton {r : List State} (h : r ≠ []) (s : State) :
    rep (r ++ [s]) = rep r := by
  cases r with
  | nil => exact absurd rfl h
  | cons a l => rfl

/-- The inner loop of the grouping phase of `XSGenPlugin.execute`
(buk.py:129-133): scan every existing run; whenever the run's first member
matches the state (apart from burn time), append the state to that run;
record whether any run matched.  A ValueError raised by the comparison
propagates. -/
def addToRuns (s : State) : List (List State) → Except String (List (List State) × Bool)
  | [] => Except.ok ([], false)
  | r :: rs =>
    match same_except_burnup_time (rep r) s with
    | Except.error e => Except.error e
    | Except.ok b =>
      match addToRuns s rs with
      | Except.error e => Except.error e
      | Except.ok (rs2, m) => Except.ok ((if b then r ++ [s] else r) :: rs2, b || m)

/-- One iteration of the outer grouping loop (buk.py:128-135): try to append
the state to the matching runs; if no run matched, open a new run holding
just this state. -/
def groupStep (runs : List (List State)) (s : State) : Except String (List (List State)) :=
  match addToRuns s runs with
  | Except.error e => Except.error e
  | Except.ok (rs2, m) => Except.ok (if m then rs2 else rs2 ++ [[s]])

/-- The grouping loop of `XSGenPlugin.execute` (buk.py:127-136) over the
whole state sequence, starting from no runs. -/
def groupLoop (runs : List (List State)) : List State → Except String (List (List State))
  | [] => Except.ok runs
  | s :: rest =>
    match groupStep runs s with
    | Except.error e => Except.error e
    | Except.ok runs2 => groupLoop runs2 rest

/-- Grouping of `rc.states` into `rc.runs` as performed by
`XSGenPlugin.execute` (buk.py:127-136). -/
def groupStates (states : List State) : Except String (List (List State)) :=
  groupLoop [] states

theorem addToRuns_ok (s : State) (runs : List (List State))
    (hlen : ∀ r ∈ runs, (rep r).vals.length = s.vals.length) :
    addToRuns s runs = Except.ok
      (runs.map (fun r => if sameExceptBody (rep r) s then r ++ [s] else r),
       runs.any (fun r => sameExceptBody (rep r) s)) := by
  induction runs with
  | nil => rfl
  | cons r rs ih =>
    have hr : (rep r).vals.length = s.vals.length := hlen r (List.mem_cons_self r rs)
    have hrest := ih (fun r2 h2 => hlen r2 (List.mem_cons_of_mem r h2))
    simp only [addToRuns, same_except_burnup_time, hr, ne_eq, not_true_eq_false,
      if_neg, hrest, List.map_cons, List.any_cons]
    simp [hr]

/-- Invariant maintained by the grouping loop: runs are nonempty, their
members carry the shared schema, every member matches its run's first
member apart from burn time, and first members of distinct runs do not
match each other. -/
structure GroupInv (F : List String) (runs : List (List State)) : Prop where
  nonempty : ∀ r ∈ runs, r ≠ []
  schema : ∀ r ∈ runs, ∀ t ∈ r, schemaOK F t
  headSame : ∀ r ∈ runs, ∀ t ∈ r, sameExceptBody (rep r) t = true
  headsPW : runs.Pairwise (fun r r2 => sameExceptBody (rep r) (rep r2) = false)

theorem groupInv_nil (F : List String) : GroupInv F [] :=
  ⟨by simp, by simp, by simp, List.Pairwise.nil⟩

theorem bool_eq_false {b : Bool} (h : ¬ b = true) : b = false := by
  cases b
  · rfl
  · exact absurd rfl h

theorem map_no_match {s : State} :
    ∀ rs : List (List State), (∀ r2 ∈ rs, sameExceptBody (rep r2) s = false) →
    rs.map (fun r2 => if sameExceptBody (rep r2) s then r2 ++ [s] else r2) = rs := by
  intro rs h
  induction rs with
  | nil => rfl
  | cons a l ih =>
    have hna : ¬ (sameExceptBody (rep a) s = true) := by
      rw [h a (List.mem_cons_self a l)]
      exact Bool.false_ne_true
    rw [List.map_cons, if_neg hna, ih (fun r2 h2 => h r2 (List.mem_cons_of_mem a h2))]

theorem groupInv_tail {F : List String} {r : List State} {rs : List (List State)}
    (hinv : GroupInv F (r :: rs)) : GroupInv F rs :=
  ⟨fun r2 h2 => hinv.nonempty r2 (List.mem_cons_of_mem r h2),
   fun r2 h2 => hinv.schema r2 (List.mem_cons_of_mem r h2),
   fun r2 h2 => hinv.headSame r2 (List.mem_cons_of_mem r h2),
   (List.pairwise_cons.mp hinv.headsPW).2⟩

/-- Appending a state to the (unique) matching run preserves the invariant
and extends the multiset of grouped states by that state. -/
theorem matched_case {F : List String} {s : State} :
    ∀ runs : List (List State), GroupInv F runs → schemaOK F s →
    runs.any (fun r => sameExceptBody (rep r) s) = true →
    GroupInv F (runs.map (fun r => if sameExceptBody (rep r) s then r ++ [s] else r)) ∧
    (runs.map (fun r => if sameExceptBody (rep r) s then r ++ [s] else r)).flatten.Perm
      (s :: runs.flatten) := by
  intro runs
  induction runs with
  | nil => intro _ _ hany; simp at hany
  | cons r rs ih =>
    intro hinv hs hany
    have hinv_rs : GroupInv F rs := groupInv_tail hinv
    have hrne : r ≠ [] := hinv.nonempty r (List.mem_cons_self r rs)
    have hrschema : ∀ t ∈ r, schemaOK F t := hinv.schema r (List.mem_cons_self r rs)
    have hrepr : schemaOK F (rep r) := hrschema (rep r) (rep_mem hrne)
    by_cases hr : sameExceptBody (rep r) s = true
    · -- the head run matches; no later run can match its representative
      have hnorest : ∀ r2 ∈ rs, sameExceptBody (rep r2) s = false := by
        intro r2 h2
        by_contra hne
        have hr2 : sameExceptBody (rep r2) s = true := by
          cases hx : sameExceptBody (rep r2) s
          · rw [hx] at hne; exact absurd rfl hne
          · rfl
        have hrep2 : schemaOK F (rep r2) :=
          hinv_rs.schema r2 h2 (rep r2) (rep_mem (hinv_rs.nonempty r2 h2))
        have hpair : sameExceptBody (rep r) (rep r2) = false :=
          (List.pairwise_cons.mp hinv.headsPW).1 r2 h2
        have htrue : sameExceptBody (rep r) (rep r2) = true :=
          sameExceptBody_trans hrepr hs hr (sameExceptBody_symm hrep2 hs hr2)
        rw [htrue] at hpair
        exact Bool.noConfusion hpair
      have hmap_id :
          rs.map (fun r2 => if sameExceptBody (rep r2) s then r2 ++ [s] else r2) = rs :=
        map_no_match rs hnorest
      constructor
      · -- invariant for the updated list of runs
        simp only [List.map_cons, if_pos hr, hmap_id]
        refine ⟨?_, ?_, ?_, ?_⟩
        · intro r2 h2
          rcases List.mem_cons.mp h2 with h2 | h2
          · subst h2; simp
          · exact hinv_rs.nonempty r2 h2
        · intro r2 h2 t ht
          rcases List.mem_cons.mp h2 with h2 | h2
          · subst h2
            rcases List.mem_append.mp ht with ht | ht
            · exact hrschema t ht
            · rw [List.mem_singleton.mp ht]; exact hs
          · exact hinv_rs.schema r2 h2 t ht
        · intro r2 h2 t ht
          rcases List.mem_cons.mp h2 with h2 | h2
          · subst h2
            rw [rep_append_singleton hrne]
            rcases List.mem_append.mp ht with ht | ht
            · exact hinv.headSame r (List.mem_cons_self r rs) t ht
            · rw [List.mem_singleton.mp ht]; exact hr
          · exact hinv_rs.headSame r2 h2 t ht
        · rw [List.pairwise_cons]
          refine ⟨?_, hinv_rs.headsPW⟩
          intro r2 h2
          rw [rep_append_singleton hrne]
          exact (List.pairwise_cons.mp hinv.headsPW).1 r2 h2
      · -- the permutation property
        simp only [List.map_cons, if_pos hr, hmap_id, List.flatten_cons,
          List.append_assoc, List.singleton_append]
        exact List.perm_middle
    · -- the head run does not match; recurse into the tail
      have hrfalse : sameExceptBody (rep r) s = false := bool_eq_false hr
      have hany_rs : rs.any (fun r2 => sameExceptBody (rep r2) s) = true := by
        simp only [List.any_cons, hrfalse, Bool.false_or] at hany
        exact hany
      obtain ⟨ih_inv, ih_perm⟩ := ih hinv_rs hs hany_rs
      constructor
      · simp only [List.map_cons, if_neg hr]
        refine ⟨?_, ?_, ?_, ?_⟩
        · intro r2 h2
          rcases List.mem_cons.mp h2 with h2 | h2
          · subst h2; exact hrne
          · exact ih_inv.nonempty r2 h2
        · intro r2 h2 t ht
          rcases List.mem_cons.mp h2 with h2 | h2
          · subst h2; exact hrschema t ht
          · exact ih_inv.schema r2 h2 t ht
        · intro r2 h2 t ht
          rcases List.mem_cons.mp h2 with h2 | h2
          · rw [h2] at ht ⊢
            exact hinv.headSame r (List.mem_cons_self r rs) t ht
          · exact ih_inv.headSame r2 h2 t ht
        · rw [List.pairwise_cons]
          refine ⟨?_, ih_inv.headsPW⟩
          intro r2 h2
          -- r2 is an updated tail run: its representative is unchanged
          obtain ⟨r0, h0, hr0⟩ := List.mem_map.mp h2
          have hrep0 : rep r2 = rep r0 := by
            subst hr0
            by_cases hc : sameExceptBody (rep r0) s = true
            · rw [if_pos hc]
              exact rep_append_singleton (hinv_rs.nonempty r0 h0) s
            · rw [if_neg hc]
          rw [hrep0]
          exact (List.pairwise_cons.mp hinv.headsPW).1 r0 h0
      · simp only [List.map_cons, if_neg hr, List.flatten_cons]
        exact (List.Perm.append_left r ih_perm).trans List.perm_middle

theorem groupStep_inv {F : List String} {runs : List (List State)} {s : State}
    (hinv : GroupInv F runs) (hs : schemaOK F s) :
    ∃ runs2, groupStep runs s = Except.ok runs2 ∧ GroupInv F runs2 ∧
      runs2.flatten.Perm (s :: runs.flatten) := by
  have hlen : ∀ r ∈ runs, (rep r).vals.length = s.vals.length := by
    intro r hr
    have hrep : rep r ∈ r := rep_mem (hinv.nonempty r hr)
    rw [(hinv.schema r hr (rep r) hrep).2, hs.2]
  have hstep : groupStep runs s = Except.ok
      (if runs.any (fun r => sameExceptBody (rep r) s) then
        runs.map (fun r => if sameExceptBody (rep r) s then r ++ [s] else r)
      else
        runs.map (fun r => if sameExceptBody (rep r) s then r ++ [s] else r) ++ [[s]]) := by
    rw [groupStep, addToRuns_ok s runs hlen]
  by_cases hany : runs.any (fun r => sameExceptBody (rep r) s) = true
  · rw [if_pos hany] at hstep
    obtain ⟨h1, h2⟩ := matched_case runs hinv hs hany
    exact ⟨_, hstep, h1, h2⟩
  · -- no run matches: the state opens a new singleton run at the end
    rw [if_neg hany] at hstep
    have hall : ∀ r ∈ runs, sameExceptBody (rep r) s = false := by
      intro r hr
      cases hx : sameExceptBody (rep r) s
      · rfl
      · exact absurd (List.any_eq_true.mpr ⟨r, hr, hx⟩) hany
    have hmap_id :
        runs.map (fun r => if sameExceptBody (rep r) s then r ++ [s] else r) = runs :=
      map_no_match runs hall
    rw [hmap_id] at hstep
    refine ⟨runs ++ [[s]], hstep, ?_, ?_⟩
    · refine ⟨?_, ?_, ?_, ?_⟩
      · intro r h2
        rcases List.mem_append.mp h2 with h2 | h2
        · exact hinv.nonempty r h2
        · rw [List.mem_singleton.mp h2]; simp
      · intro r h2 t ht
        rcases List.mem_append.mp h2 with h2 | h2
        · exact hinv.schema r h2 t ht
        · rw [List.mem_singleton.mp h2] at ht
          rw [List.mem_singleton.mp ht]
          exact hs
      · intro r h2 t ht
        rcases List.mem_append.mp h2 with h2 | h2
        · exact hinv.headSame r h2 t ht
        · rw [List.mem_singleton.mp h2] at ht ⊢
          rw [List.mem_singleton.mp ht]
          exact sameExceptBody_refl s
      · rw [List.pairwise_append]
        refine ⟨hinv.headsPW, by simp, ?_⟩
        intro r h2 r2 h3
        rw [List.mem_singleton.mp h3]
        exact hall r h2
    · rw [List.flatten_append]
      simp only [List.flatten_cons, List.flatten_nil, List.append_nil]
      exact List.perm_append_singleton s runs.flatten

theorem groupLoop_inv {F : List String} :
    ∀ (pending : List State) (runs : List (List State)),
    GroupInv F runs → (∀ t ∈ pending, schemaOK F t) →
    ∃ runs2, groupLoop runs pending = Except.ok runs2 ∧ GroupInv F runs2 ∧
      runs2.flatten.Perm (runs.flatten ++ pending) := by
  intro pending
  induction pending with
  | nil =>
    intro runs hinv _
    exact ⟨runs, rfl, hinv, by simp⟩
  | cons s rest ih =>
    intro runs hinv hp
    obtain ⟨runs1, hstep, hinv1, hperm1⟩ :=
      groupStep_inv hinv (hp s (List.mem_cons_self s rest))
    obtain ⟨runs2, hloop, hinv2, hperm2⟩ :=
      ih runs1 hinv1 (fun t ht => hp t (List.mem_cons_of_mem s ht))
    refine ⟨runs2, ?_, hinv2, ?_⟩
    · rw [groupLoop, hstep]
      exact hloop
    · refine hperm2.trans ?_
      refine (List.Perm.append_right rest hperm1).trans ?_
      exact List.perm_middle.symm

/-- C1: for a state sequence sharing one parameter schema, the grouping loop
of `XSGenPlugin.execute` succeeds, the concatenation of the produced runs is
a permutation of the input states, and two states lie in a common run
exactly when they are input states agreeing on every parameter other than
burn_times. -/
theorem grouping_partitions (F : List String) (states : List State)
    (hschema : ∀ t ∈ states, schemaOK F t) :
    ∃ runs, groupStates states = Except.ok runs ∧
      runs.flatten.Perm states ∧
      ∀ s t : State,
        (∃ r ∈ runs, s ∈ r ∧ t ∈ r) ↔
          (s ∈ states ∧ t ∈ states ∧ sameExceptBody s t = true) := by
  obtain ⟨runs, hloop, hinv, hperm⟩ := groupLoop_inv states [] (groupInv_nil F) hschema
  have hperm2 : runs.flatten.Perm states := by
    simpa using hperm
  refine ⟨runs, hloop, hperm2, ?_⟩
  intro s t
  constructor
  · rintro ⟨r, hr, hsr, htr⟩
    have hs : schemaOK F s := hinv.schema r hr s hsr
    have hrep : schemaOK F (rep r) :=
      hinv.schema r hr (rep r) (rep_mem (hinv.nonempty r hr))
    have h1 : sameExceptBody (rep r) s = true := hinv.headSame r hr s hsr
    have h2 : sameExceptBody (rep r) t = true := hinv.headSame r hr t htr
    refine ⟨?_, ?_, ?_⟩
    · exact hperm2.mem_iff.mp (List.mem_flatten.mpr ⟨r, hr, hsr⟩)
    · exact hperm2.mem_iff.mp (List.mem_flatten.mpr ⟨r, hr, htr⟩)
    · exact sameExceptBody_trans hs hrep (sameExceptBody_symm hrep hs h1) h2
  · rintro ⟨hsmem, htmem, hst⟩
    obtain ⟨rs, hrs, hs_in⟩ := List.mem_flatten.mp (hperm2.mem_iff.mpr hsmem)
    obtain ⟨rt, hrt, ht_in⟩ := List.mem_flatten.mp (hperm2.mem_iff.mpr htmem)
    by_cases heq : rs = rt
    · exact ⟨rs, hrs, hs_in, heq ▸ ht_in⟩
    -- distinct runs would have matching representatives, contradicting
    -- pairwiseness
    exfalso
    have hS : schemaOK F s := hschema s hsmem
    have hT : schemaOK F t := hschema t htmem
    have hrepS : schemaOK F (rep rs) :=
      hinv.schema rs hrs (rep rs) (rep_mem (hinv.nonempty rs hrs))
    have hrepT : schemaOK F (rep rt) :=
      hinv.schema rt hrt (rep rt) (rep_mem (hinv.nonempty rt hrt))
    have h1 : sameExceptBody (rep rs) s = true := hinv.headSame rs hrs s hs_in
    have h2 : sameExceptBody (rep rt) t = true := hinv.headSame rt hrt t ht_in
    have hchain : sameExceptBody (rep rs) (rep rt) = true :=
      sameExceptBody_trans hrepS hT
        (sameExceptBody_trans hrepS hS h1 hst)
        (sameExceptBody_symm hrepT hT h2)
    have hpw := hinv.headsPW
    have hsymmPW : runs.Pairwise (fun r r2 =>
        sameExceptBody (rep r) (rep r2) = false ∨
        sameExceptBody (rep r2) (rep r) = false) :=
      hpw.imp (fun h => Or.inl h)
    have hsym : Symmetric (fun r r2 : List State =>
        sameExceptBody (rep r) (rep r2) = false ∨
        sameExceptBody (rep r2) (rep r) = false) := by
      intro a b h
      exact h.symm
    have hfalse := hsymmPW.forall hsym hrs hrt heq
    rcases hfalse with hf | hf
    · rw [hchain] at hf
      exact Bool.noConfusion hf
    · have : sameExceptBody (rep rt) (rep rs) = true :=
        sameExceptBody_symm hrepS hrepT hchain
      rw [this] at hf
      exact Bool.noConfusion hf

/-- Example schema and states (the end-to-end scenario of the spec:
two enrichments, burn times 0/100/200). -/
def exF : List String := ["enrichment", "burn_times"]

def exStates : List State :=
  [⟨exF, [4, 0]⟩, ⟨exF, [4, 100]⟩, ⟨exF, [4, 200]⟩, ⟨exF, [5, 0]⟩]

/-- Witness for C1 at the concrete end-to-end scenario. -/
theorem grouping_partitions_witness :
    (∀ t ∈ exStates, schemaOK exF t) ∧
    (∃ runs, groupStates exStates = Except.ok runs ∧
      runs.flatten.Perm exStates ∧
      ∀ s t : State,
        (∃ r ∈ runs, s ∈ r ∧ t ∈ r) ↔
          (s ∈ exStates ∧ t ∈ exStates ∧ sameExceptBody s t = true)) :=
  ⟨by decide, grouping_partitions exF exStates (by decide)⟩

/-- Lookup in an association list modelling a Python dict (first match). -/
def alookup {κ α : Type} [DecidableEq κ] (l : List (κ × α)) (k : κ) : Option α :=
  (l.find? (fun p => decide (p.1 = k))).map Prod.snd

/-- In-place value replacement for an existing key, preserving entry order
(Python dict assignment to a present key). -/
def aset {κ α : Type} [DecidableEq κ] : List (κ × α) → κ → α → List (κ × α)
  | [], _, _ => []
  | p :: rest, k, v => if p.1 = k then (k, v) :: rest else p :: aset rest k v

/-- A material composition: nuclide id to mass fraction
(`pyne.material.Material.comp`).  Nuclide ids are modelled as naturals. -/
abbrev Material := List (Nat × ℚ)

/-- The triple parsed and built by `OpenMCOrigen.openmc`: eigenvalue `k`,
normalized group flux `phi_g`, and the cross-section table (opaque to the
orchestration logic, modelled as a rational payload list). -/
structure TransportOut where
  k : ℚ
  phi_g : List ℚ
  xs : List ℚ
deriving DecidableEq, Repr, Inhabited

/-- What a call to `OpenMCOrigen.generate` evaluates to: a cache hit returns
the stored 3-tuple `(k, phi_g, xs)` (openmc_origen.py:204-205), a fresh solve
returns the 4-tuple `(k, phi_g, xs, fuel_material)` (openmc_origen.py:211).
Python tuples of different lengths are never equal, hence two constructors. -/
inductive GenResult where
  | cached (k : ℚ) (phi_g : List ℚ) (xs : List ℚ)
  | fresh (k : ℚ) (phi_g : List ℚ) (xs : List ℚ) (mat : Material)
deriving DecidableEq, Repr

/-- A raised external-solver failure (`subprocess.check_call` raising inside
`OpenMCOrigen.openmc` or `OpenMCOrigen.origen`). -/
inductive GenErr where
  | transportFailed (s : State)
  | transmuteFailed (s : State)
deriving DecidableEq, Repr

/-- Record of one external solver process launch. -/
inductive SolverCall where
  | transportCall (s : State)
  | transmuteCall (s : State)
deriving DecidableEq, Repr

/-- The mutable attributes of the `OpenMCOrigen` engine that the pipeline
reads and writes: the memoization dict `self.statelibs` and the shared
mutable `self.rc.fuel_material` threaded between burnup steps. -/
structure EngineSt where
  statelibs : List (State × TransportOut)
  fuel_material : Material
deriving DecidableEq, Repr

/-- Oracles for the two external physics codes.  `transport` models
`OpenMCOrigen.openmc` up to its parsed results: it depends on the state and
on the current fuel material (written into materials.xml by
`_make_omc_input`; cladding and coolant compositions are static run-control
data and are omitted).  `transmute` models `OpenMCOrigen.origen`: its inputs
are the state, the incoming fuel material (TAPE4), the irradiation interval
and the total flux `phi_g.sum()` (TAPE5); it returns the final material of
TAPE6.  A `none` result models a raised subprocess failure. -/
structure Env where
  transport : State → Material → Option TransportOut
  transmute : State → Material → ℚ → ℚ → Option Material

/-- `OpenMCOrigen.generate` (openmc_origen.py:201-211).  On a cache hit the
stored triple is returned unchanged with no solver invocation.  Otherwise
the transport stage runs, its triple is stored in `statelibs` (before the
transmutation stage), then the transmutation stage runs and its output
material is assigned to `rc.fuel_material` and returned as the fourth
component. -/
def generate (env : Env) (st : EngineSt) (s : State) (transmute_time : ℚ) :
    Except GenErr GenResult × EngineSt × List SolverCall :=
  match alookup st.statelibs s with
  | some t => (Except.ok (GenResult.cached t.k t.phi_g t.xs), st, [])
  | none =>
    match env.transport s st.fuel_material with
    | none => (Except.error (GenErr.transportFailed s), st, [SolverCall.transportCall s])
    | some t =>
      let st1 : EngineSt := { st with statelibs := st.statelibs ++ [(s, t)] }
      match env.transmute s st.fuel_material transmute_time t.phi_g.sum with
      | none => (Except.error (GenErr.transmuteFailed s), st1,
          [SolverCall.transportCall s, SolverCall.transmuteCall s])
      | some m =>
        (Except.ok (GenResult.fresh t.k t.phi_g t.xs m),
         { st1 with fuel_material := m },
         [SolverCall.transportCall s, SolverCall.transmuteCall s])

/-- Python exceptions that can escape the run-building loop. -/
inductive PyErr where
  | typeErr (msg : String)
  | valueErr (msg : String)
  | keyErr (nuc : Nat)
  | solveErr (e : GenErr)
deriving DecidableEq, Repr

/-- One iteration of the loop of `OpenMCOrigen.generate_run`
(openmc_origen.py:177-187): call `generate` and unpack its result into four
names.  A cache hit yields a 3-tuple, so the unpacking raises ValueError;
a solver failure propagates.  On failure the loop aborts, so the
post-failure engine state is not needed further. -/
def runStep (env : Env) (st : EngineSt) (s : State) (transmute_time : ℚ) :
    Except PyErr (Material × EngineSt) :=
  match generate env st s transmute_time with
  | (Except.ok (GenResult.fresh _ _ _ m), st2, _) => Except.ok (m, st2)
  | (Except.ok (GenResult.cached _ _ _), _, _) =>
      Except.error (PyErr.valueErr "not enough values to unpack (expected 4, got 3)")
  | (Except.error e, _, _) => Except.error (PyErr.solveErr e)

/-- The irradiation interval computed at the head of the loop
(openmc_origen.py:178-181): difference of the next state's burn time and
this state's burn time, and 0 for the final state of the run. -/
def headInterval (s : State) : List State → ℚ
  | [] => 0
  | s2 :: _ => s2.burn_times - s.burn_times

/-- Trace record of one successfully executed burnup step: the state, the
fuel material the transport stage consumed, the irradiation interval fed to
the solve, and the outgoing material of the transmutation stage. -/
structure StepRec where
  state : State
  transportIn : Material
  transmute_time : ℚ
  matOut : Material
deriving DecidableEq, Repr, Inhabited

/-- The stepping loop of `OpenMCOrigen.generate_run` over the run's states,
accumulating `mat_hist` and an observation trace of the executed steps.
The engine state is threaded through the calls to `generate`. -/
def genRunLoop (env : Env) (st : EngineSt) :
    List State → Except PyErr (List Material) × EngineSt × List StepRec
  | [] => (Except.ok [], st, [])
  | s :: rest =>
    match runStep env st s (headInterval s rest) with
    | Except.error e => (Except.error e, st, [])
    | Except.ok (m, st2) =>
      match genRunLoop env st2 rest with
      | (res, st3, tr) =>
        (res.map (fun mats => m :: mats), st3,
         ⟨s, st.fuel_material, headInterval s rest, m⟩ :: tr)

/-- The per-run library dict assembled by `OpenMCOrigen.generate_run`
(openmc_origen.py:176-197): scalar series plus per-nuclide histories. -/
structure RunLib where
  TIME : List ℚ
  NEUT_PROD : List ℚ
  NEUT_DEST : List ℚ
  BUd : List ℚ
  nucs : List (Nat × List ℚ)
deriving DecidableEq, Repr

/-- History of one nuclide over `mat_hist` (openmc_origen.py:192):
`[mat.comp[nuc] for mat in mat_hist]` raises KeyError when the nuclide is
missing from some step's composition. -/
def nucHistory (mats : List Material) (nuc : Nat) : Except PyErr (List ℚ) :=
  mats.mapM (fun m =>
    match alookup m nuc with
    | some v => Except.ok v
    | none => Except.error (PyErr.keyErr nuc))

/-- The set of nuclides appearing in any step's composition
(openmc_origen.py:188-191); modelled as order of first appearance (the
Python set order is irrelevant because the result becomes a dict). -/
def allNucs (mats : List Material) : List Nat :=
  (mats.foldl (fun acc m => acc ++ m.map Prod.fst) []).eraseDups

/-- The nuclide-history dict of `OpenMCOrigen.generate_run`
(openmc_origen.py:188-193). -/
def buildNucsHist (mats : List Material) : Except PyErr (List (Nat × List ℚ)) :=
  (allNucs mats).mapM (fun nuc => (nucHistory mats nuc).map (fun h => (nuc, h)))

/-- `OpenMCOrigen.generate_run` (openmc_origen.py:174-197): walk the run,
then assemble the library dict.  TIME collects each state's burn time;
NEUT_PROD, NEUT_DEST and BUd are zero placeholders. -/
def generate_run (env : Env) (st : EngineSt) (run : List State) :
    Except PyErr RunLib × EngineSt × List StepRec :=
  match genRunLoop env st run with
  | (Except.ok mats, st2, tr) =>
    (match buildNucsHist mats with
     | Except.ok nucs =>
       (Except.ok ⟨run.map State.burn_times, run.map (fun _ => 0),
                   run.map (fun _ => 0), run.map (fun _ => 0), nucs⟩, st2, tr)
     | Except.error e => (Except.error e, st2, tr))
  | (Except.error e, st2, tr) => (Except.error e, st2, tr)

instance exceptDecEq {ε α : Type} [DecidableEq ε] [DecidableEq α] :
    DecidableEq (Except ε α) := fun a b =>
  match a, b with
  | Except.error e1, Except.error e2 =>
    if h : e1 = e2 then isTrue (by rw [h]) else
      isFalse (fun hc => h (Except.error.injEq e1 e2 ▸ hc))
  | Except.error _, Except.ok _ => isFalse (fun hc => Except.noConfusion hc)
  | Except.ok _, Except.error _ => isFalse (fun hc => Except.noConfusion hc)
  | Except.ok a1, Except.ok a2 =>
    if h : a1 = a2 then isTrue (by rw [h]) else
      isFalse (fun hc => h (Except.ok.injEq a1 a2 ▸ hc))

/-- Concrete state constructor over the example schema. -/
def mkState (e bt : ℚ) : State := ⟨exF, [e, bt]⟩

def sA : State := mkState 4 0

def sB : State := mkState 4 100

def sC : State := mkState 5 0

/-- The design's initial fuel loading: all mass in nuclide 1. -/
def mat0 : Material := [(1, 1)]

/-- Fresh engine: empty memoization dict, initial fuel loading. -/
def st0 : EngineSt := ⟨[], mat0⟩

/-- Deterministic stub solvers: transport returns a fixed triple, the
transmutation halves every nuclide fraction. -/
def env0 : Env :=
  ⟨fun _ _ => some ⟨1, [1], []⟩,
   fun _ m _ _ => some (m.map (fun p => (p.1, p.2 / 2)))⟩

/-- Stub solvers whose transmutation stage always fails. -/
def envTmFail : Env :=
  ⟨fun _ _ => some ⟨1, [1], []⟩, fun _ _ _ _ => none⟩

def run1 : List State := [sA, sB]

def run2 : List State := [sC]

/-- C2: at a concrete input, the first `generate` call returns the fresh
4-tuple, while the second call on the structurally equal state returns the
stored 3-tuple with no solver invocation — a value different from what the
first call returned, so the caller's 4-way unpacking fails on the hit. -/
theorem generate_cache_hit_differs :
    (generate env0 st0 sA 100).1 =
      Except.ok (GenResult.fresh 1 [1] [] [(1, 1/2)]) ∧
    (generate env0 ((generate env0 st0 sA 100).2.1) sA 100).1 =
      Except.ok (GenResult.cached 1 [1] []) ∧
    (generate env0 ((generate env0 st0 sA 100).2.1) sA 100).2.2 = [] ∧
    (generate env0 ((generate env0 st0 sA 100).2.1) sA 100).1 ≠
      (generate env0 st0 sA 100).1 := by
  have h1 : generate env0 st0 sA 100 =
      (Except.ok (GenResult.fresh 1 [1] [] [(1, 1/2)]),
       ⟨[(sA, ⟨1, [1], []⟩)], [(1, 1/2)]⟩,
       [SolverCall.transportCall sA, SolverCall.transmuteCall sA]) := by
    simp [generate, env0, st0, sA, mkState, mat0, alookup]
  have h2 : generate env0 ((generate env0 st0 sA 100).2.1) sA 100 =
      (Except.ok (GenResult.cached 1 [1] []),
       (generate env0 st0 sA 100).2.1, []) := by
    rw [h1]
    simp [generate, alookup]
  refine ⟨by rw [h1], by rw [h2], by rw [h2], ?_⟩
  rw [h2, h1]
  simp

/-- C4 (amended): when the state is not yet memoized, a transport failure
leaves the engine state untouched, but a transmutation failure happens
after `statelibs[state]` has already been assigned, so the failed state IS
memoized with its transport triple. -/
theorem generate_failure_cache (env : Env) (st : EngineSt) (s : State) (tt : ℚ)
    (hnone : alookup st.statelibs s = none) :
    (env.transport s st.fuel_material = none →
      generate env st s tt =
        (Except.error (GenErr.transportFailed s), st, [SolverCall.transportCall s])) ∧
    (∀ t : TransportOut, env.transport s st.fuel_material = some t →
      env.transmute s st.fuel_material tt t.phi_g.sum = none →
      (generate env st s tt).1 = Except.error (GenErr.transmuteFailed s) ∧
      (generate env st s tt).2.1.statelibs = st.statelibs ++ [(s, t)] ∧
      (generate env st s tt).2.1.statelibs ≠ st.statelibs) := by
  constructor
  · intro htr
    simp [generate, hnone, htr]
  · intro t htr htm
    simp only [generate, hnone, htr, htm]
    refine ⟨trivial, trivial, ?_⟩
    intro h
    have hlen := congrArg List.length h
    simp at hlen

/-- Witness for C4's amended theorem at a concrete input. -/
theorem generate_failure_cache_witness :
    alookup st0.statelibs sA = none ∧
    ((generate envTmFail st0 sA 5).1 = Except.error (GenErr.transmuteFailed sA) ∧
     (generate envTmFail st0 sA 5).2.1.statelibs =
       st0.statelibs ++ [(sA, ⟨1, [1], []⟩)] ∧
     (generate envTmFail st0 sA 5).2.1.statelibs ≠ st0.statelibs) :=
  ⟨rfl,
   (generate_failure_cache envTmFail st0 sA 5 rfl).2
     ⟨1, [1], []⟩ rfl rfl⟩

/-- C4 (counterexample to the claim as stated): a failing transmutation
solve does change `statelibs`. -/
theorem generate_transmute_fail_memoizes :
    (generate envTmFail st0 sA 5).1 = Except.error (GenErr.transmuteFailed sA) ∧
    (generate envTmFail st0 sA 5).2.1.statelibs ≠ st0.statelibs := by
  have h1 : generate envTmFail st0 sA 5 =
      (Except.error (GenErr.transmuteFailed sA),
       ⟨[(sA, ⟨1, [1], []⟩)], mat0⟩,
       [SolverCall.transportCall sA, SolverCall.transmuteCall sA]) := by
    simp [generate, envTmFail, st0, sA, mkState, mat0, alookup]
  refine ⟨by rw [h1], ?_⟩
  rw [h1]
  simp [st0]

theorem generate_fresh_fuel {env : Env} {st : EngineSt} {s : State} {tt k : ℚ}
    {p x : List ℚ} {m : Material} {st2 : EngineSt} {calls : List SolverCall}
    (h : generate env st s tt = (Except.ok (GenResult.fresh k p x m), st2, calls)) :
    st2.fuel_material = m := by
  unfold generate at h
  split at h
  · simp at h
  · split at h
    · simp at h
    · split at h
      · simp at h
      · have hfm := congrArg (fun x => x.2.1.fuel_material) h
        have hres := congrArg (fun x => x.1) h
        simp at hfm hres
        rw [← hfm]
        exact hres.2.2.2

theorem runStep_fuel {env : Env} {st : EngineSt} {s : State} {tt : ℚ}
    {m : Material} {st2 : EngineSt}
    (h : runStep env st s tt = Except.ok (m, st2)) : st2.fuel_material = m := by
  unfold runStep at h
  split at h
  · rename_i k p x mm stx calls hgen
    simp at h
    obtain ⟨hm, hst⟩ := h
    rw [← hst, generate_fresh_fuel hgen, hm]
  · simp at h
  · simp at h

theorem generate_run_trace (env : Env) (st : EngineSt) (run : List State) :
    (generate_run env st run).2.2 = (genRunLoop env st run).2.2 := by
  rcases h : genRunLoop env st run with ⟨res, st2, tr⟩
  unfold generate_run
  rw [h]
  cases res with
  | ok mats =>
    cases hb : buildNucsHist mats with
    | ok nucs => simp [hb]
    | error e => simp [hb]
  | error e => simp

theorem genRunLoop_threads (env : Env) :
    ∀ (run : List State) (st : EngineSt),
      (0 < (genRunLoop env st run).2.2.length →
        ((genRunLoop env st run).2.2.getD 0 default).transportIn = st.fuel_material) ∧
      (∀ i, i + 1 < (genRunLoop env st run).2.2.length →
        ((genRunLoop env st run).2.2.getD (i+1) default).transportIn =
          ((genRunLoop env st run).2.2.getD i default).matOut) := by
  intro run
  induction run with
  | nil =>
    intro st
    constructor
    · intro h
      simp [genRunLoop] at h
    · intro i h
      simp [genRunLoop] at h
  | cons s rest ih =>
    intro st
    rcases hrs : runStep env st s (headInterval s rest) with e | ⟨m, stm⟩
    · constructor
      · intro h
        simp [genRunLoop, hrs] at h
      · intro i h
        simp [genRunLoop, hrs] at h
    · rcases hrec : genRunLoop env stm rest with ⟨res3, st3, tr3⟩
      have hloop : genRunLoop env st (s :: rest) =
          (res3.map (fun mats => m :: mats), st3,
           ⟨s, st.fuel_material, headInterval s rest, m⟩ :: tr3) := by
        simp only [genRunLoop, hrs, hrec]
      obtain ⟨ih1, ih2⟩ := ih stm
      rw [hrec] at ih1 ih2
      constructor
      · intro _
        rw [hloop]
        rfl
      · intro i hi
        rw [hloop] at hi ⊢
        have hi2 : i + 1 < tr3.length + 1 := by
          simpa using hi
        cases i with
        | zero =>
          have h0 : 0 < tr3.length := by omega
          exact (ih1 h0).trans (runStep_fuel hrs)
        | succ j =>
          have hi3 : j + 1 < tr3.length := by omega
          exact ih2 j hi3

/-- C3 (amended): within one run built by `OpenMCOrigen.generate_run`, the
material consumed by the transport stage at step i+1 is exactly the material
produced by the transmutation stage at step i, and the transport stage at
step 0 consumes the engine's current `rc.fuel_material` — which is the
design's initial loading only if no earlier run was built by this engine. -/
theorem generate_run_threads (env : Env) (st : EngineSt) (run : List State) (i : Nat)
    (hi : i + 1 < (generate_run env st run).2.2.length) :
    ((generate_run env st run).2.2.getD (i+1) default).transportIn =
      ((generate_run env st run).2.2.getD i default).matOut ∧
    ((generate_run env st run).2.2.getD 0 default).transportIn = st.fuel_material := by
  rw [generate_run_trace] at hi ⊢
  obtain ⟨h1, h2⟩ := genRunLoop_threads env run st
  exact ⟨h2 i hi, h1 (by omega)⟩

/-- Witness for C3's amended theorem at a concrete two-step run. -/
theorem generate_run_threads_witness :
    0 + 1 < (generate_run env0 st0 run1).2.2.length ∧
    (((generate_run env0 st0 run1).2.2.getD (0+1) default).transportIn =
      ((generate_run env0 st0 run1).2.2.getD 0 default).matOut ∧
     ((generate_run env0 st0 run1).2.2.getD 0 default).transportIn =
       st0.fuel_material) :=
  ⟨by decide, generate_run_threads env0 st0 run1 0 (by decide)⟩

/-- C3 (counterexample to the claim as stated): building `run1` and then
`run2` with the same engine, the second run's step 0 consumes the material
carried over from the first run, not the design's initial loading. -/
theorem generate_run_crossrun_counterexample :
    st0.fuel_material = [(1, 1)] ∧
    ((generate_run env0 ((generate_run env0 st0 run1).2.1) run2).2.2.getD 0
        default).transportIn = [(1, 1/2/2)] ∧
    ((generate_run env0 ((generate_run env0 st0 run1).2.1) run2).2.2.getD 0
        default).transportIn ≠ st0.fuel_material := by
  refine ⟨rfl, rfl, ?_⟩
  intro h
  have h2 : (1 : ℚ) / 2 / 2 = 1 := by
    have := List.head_eq_of_cons_eq (congrArg (fun l => l) h)
    exact congrArg Prod.snd this
  norm_num at h2

theorem genRunLoop_intervals (env : Env) :
    ∀ (run : List State) (st : EngineSt) (mats : List Material) (st2 : EngineSt)
      (tr : List StepRec),
      genRunLoop env st run = (Except.ok mats, st2, tr) →
      tr.length = run.length ∧
      ∀ i, i < run.length →
        (tr.getD i default).state = run.getD i default ∧
        (tr.getD i default).transmute_time =
          (if i + 1 < run.length
           then (run.getD (i+1) default).burn_times - (run.getD i default).burn_times
           else 0) := by
  intro run
  induction run with
  | nil =>
    intro st mats st2 tr h
    simp [genRunLoop] at h
    obtain ⟨-, -, htr⟩ := h
    subst htr
    exact ⟨rfl, fun i hi => absurd hi (by simp)⟩
  | cons s rest ih =>
    intro st mats st2 tr h
    rw [genRunLoop] at h
    split at h
    · simp at h
    · rename_i m stm hrs
      split at h
      rename_i res3 st3 tr3 hrec
      cases res3 with
      | error e => simp [Except.map] at h
      | ok mats3 =>
        simp [Except.map] at h
        obtain ⟨-, -, htr⟩ := h
        obtain ⟨ihlen, ihitems⟩ := ih stm mats3 st3 tr3 hrec
        rw [← htr]
        constructor
        · simp [ihlen]
        · intro i hi
          cases i with
          | zero =>
            refine ⟨rfl, ?_⟩
            show headInterval s rest =
              (if 0 + 1 < (s :: rest).length
               then ((s :: rest).getD 1 default).burn_times -
                 ((s :: rest).getD 0 default).burn_times
               else 0)
            cases rest with
            | nil => simp [headInterval]
            | cons s2 rest2 => simp [headInterval]
          | succ j =>
            have hj : j < rest.length := by
              simp at hi
              omega
            obtain ⟨hstate, htime⟩ := ihitems j hj
            refine ⟨?_, ?_⟩
            · simpa using hstate
            · show (tr3.getD j default).transmute_time = _
              rw [htime]
              by_cases hlt : j + 1 < rest.length
              · rw [if_pos hlt, if_pos (by simpa using Nat.succ_lt_succ hlt)]
                simp
              · rw [if_neg hlt, if_neg (by simp; omega)]

/-- C5: for a run successfully built by `OpenMCOrigen.generate_run`, the
irradiation interval fed into the solve at step i is the difference of the
burn times of states i+1 and i, and 0 at the final step. -/
theorem generate_run_intervals (env : Env) (st : EngineSt) (run : List State)
    (lib : RunLib) (st2 : EngineSt) (tr : List StepRec)
    (h : generate_run env st run = (Except.ok lib, st2, tr)) :
    tr.length = run.length ∧
    ∀ i, i < run.length →
      (tr.getD i default).state = run.getD i default ∧
      (tr.getD i default).transmute_time =
        (if i + 1 < run.length
         then (run.getD (i+1) default).burn_times - (run.getD i default).burn_times
         else 0) := by
  unfold generate_run at h
  split at h
  · rename_i mats stx trx hr
    split at h
    · simp at h
      obtain ⟨-, hst, htr⟩ := h
      subst hst
      subst htr
      exact genRunLoop_intervals env run st mats _ _ hr
    · simp at h
  · simp at h

/-- Witness for C5: evaluation of the concrete two-step run (burn times
0 and 100) passes interval 100 − 0 to step 0 and 0 to the final step. -/
theorem generate_run_intervals_witness :
    (generate_run env0 st0 run1).2.2.length = run1.length ∧
    ∀ i, i < run1.length →
      ((generate_run env0 st0 run1).2.2.getD i default).state = run1.getD i default ∧
      ((generate_run env0 st0 run1).2.2.getD i default).transmute_time =
        (if i + 1 < run1.length
         then (run1.getD (i+1) default).burn_times - (run1.getD i default).burn_times
         else 0) :=
  generate_run_intervals env0 st0 run1
    ⟨[0, 100], [0, 0], [0, 0], [0, 0], [(1, [1/2, 1/2/2])]⟩
    ⟨[(sA, ⟨1, [1], []⟩), (sB, ⟨1, [1], []⟩)], [(1, 1/2/2)]⟩
    ((generate_run env0 st0 run1).2.2)
    rfl

/-- Flux extraction of `OpenMCOrigen._parse_statepoint` (openmc_origen.py:
293-295): the per-group tally column is reversed (`results[::-1, :, 0]`,
flattened), then divided elementwise by its own sum (`phi_g /= phi_g.sum()`).
The input list holds the tally values in file order. -/
def normalize_flux (tally : List ℚ) : List ℚ :=
  tally.reverse.map (fun x => x / tally.reverse.sum)

theorem list_sum_map_div (l : List ℚ) (c : ℚ) :
    (l.map (fun x => x / c)).sum = l.sum / c := by
  induction l with
  | nil => simp
  | cons x rest ih => simp [ih, add_div]

/-- C7: when the flux tally total is positive, every returned entry is the
corresponding (group-order-reversed) tally divided by the total, and the
normalized flux sums to 1. -/
theorem normalize_flux_spec (tally : List ℚ) (hpos : 0 < tally.sum) :
    (normalize_flux tally).sum = 1 ∧
    (normalize_flux tally).length = tally.length ∧
    ∀ i, i < tally.length →
      (normalize_flux tally).getD i 0 = tally.reverse.getD i 0 / tally.sum := by
  have hsum : tally.reverse.sum = tally.sum := List.sum_reverse tally
  refine ⟨?_, ?_, ?_⟩
  · rw [normalize_flux, list_sum_map_div, hsum]
    exact div_self (ne_of_gt hpos)
  · simp [normalize_flux]
  · intro i hi
    have hlen : i < tally.reverse.length := by simpa using hi
    rw [normalize_flux, hsum]
    rw [List.getD_eq_getElem?_getD, List.getElem?_map,
      List.getElem?_eq_getElem hlen]
    rw [List.getD_eq_getElem?_getD, List.getElem?_eq_getElem hlen]
    rfl

/-- Witness for C7 at the concrete tally [1, 3]. -/
theorem normalize_flux_witness :
    0 < ([1, 3] : List ℚ).sum ∧
    ((normalize_flux [1, 3]).sum = 1 ∧
     (normalize_flux [1, 3]).length = ([1, 3] : List ℚ).length ∧
     ∀ i, i < ([1, 3] : List ℚ).length →
       (normalize_flux [1, 3]).getD i 0 =
         ([1, 3] : List ℚ).reverse.getD i 0 / ([1, 3] : List ℚ).sum) :=
  ⟨by norm_num, normalize_flux_spec [1, 3] (by norm_num)⟩

/-- Character-list comparison: the first list leads the second. -/
def leadsWith : List Char → List Char → Bool
  | [], _ => true
  | _ :: _, [] => false
  | a :: as, b :: bs => decide (a = b) && leadsWith as bs

/-- Python's `str.startswith`, as an executable character-list check. -/
def startswith (s pre : String) : Bool :=
  leadsWith pre.toList s.toList

/-- `_find_statepoint` (openmc_origen.py:362-366): scan the directory listing
for the first file whose name starts with "statepoint" (the model takes the
listing and returns the bare name; the Python version joins it to the
directory path). -/
def find_statepoint (files : List String) : Option String :=
  files.find? (fun f => startswith f "statepoint")

/-- The five input artifacts written by `OpenMCOrigen._make_omc_input`
(openmc_origen.py:231-273). -/
def omcInputNames : List String :=
  ["settings.xml", "materials.xml", "geometry.xml", "tallies.xml", "plots.xml"]

/-- Writing a file into a directory listing: overwriting keeps the listing,
a new name is appended. -/
def writeFile (files : List String) (name : String) : List String :=
  if name ∈ files then files else files ++ [name]

def make_omc_input (files : List String) : List String :=
  omcInputNames.foldl writeFile files

/-- `OpenMCOrigen.openmc` (openmc_origen.py:213-229) up to the decision to
launch the solver: write the input artifacts, look for an existing
statepoint; only when none is found is the external `openmc` process run
(which deposits a statepoint file).  Returns whether the solver was invoked
and the resulting directory listing. -/
def openmc_runs (files : List String) : Bool × List String :=
  match find_statepoint (make_omc_input files) with
  | some _ => (false, make_omc_input files)
  | none => (true, make_omc_input files ++ ["statepoint.out.binary"])

theorem mem_writeFile (files : List String) (name x : String) :
    x ∈ writeFile files name ↔ x ∈ files ∨ x = name := by
  unfold writeFile
  split
  · rename_i hmem
    constructor
    · exact Or.inl
    · rintro (h | h)
      · exact h
      · rw [h]; exact hmem
  · simp

theorem mem_foldl_writeFile :
    ∀ (names files : List String) (x : String),
      x ∈ names.foldl writeFile files ↔ x ∈ files ∨ x ∈ names := by
  intro names
  induction names with
  | nil => simp
  | cons n rest ih =>
    intro files x
    rw [List.foldl_cons, ih, mem_writeFile]
    constructor
    · rintro ((h | h) | h)
      · exact Or.inl h
      · exact Or.inr (by rw [h]; exact List.mem_cons_self n rest)
      · exact Or.inr (List.mem_cons_of_mem n h)
    · rintro (h | h)
      · exact Or.inl (Or.inl h)
      · rcases List.mem_cons.mp h with h | h
        · exact Or.inl (Or.inr h)
        · exact Or.inr h

/-- C8: the transport solver process is launched iff no file in the state's
working directory starts with "statepoint"; when a statepoint exists the
listing is left as written by `_make_omc_input` (the artifact is reused). -/
theorem openmc_runs_iff (files : List String) :
    ((openmc_runs files).1 = true ↔
      ∀ f ∈ files, startswith f "statepoint" = false) ∧
    ((openmc_runs files).1 = false →
      (openmc_runs files).2 = make_omc_input files) := by
  have hnames : ∀ f ∈ omcInputNames, startswith f "statepoint" = false := by
    decide
  cases hf : find_statepoint (make_omc_input files) with
  | some a =>
    have h1 : openmc_runs files = (false, make_omc_input files) := by
      unfold openmc_runs
      rw [hf]
    rw [h1]
    constructor
    · constructor
      · intro h
        exact absurd h (by simp)
      · intro hall
        exfalso
        have hmem := List.mem_of_find?_eq_some hf
        have hsw := List.find?_some hf
        simp only [] at hsw
        rcases (mem_foldl_writeFile omcInputNames files a).mp hmem with h | h
        · rw [hall a h] at hsw
          exact Bool.noConfusion hsw
        · rw [hnames a h] at hsw
          exact Bool.noConfusion hsw
    · intro _
      rfl
  | none =>
    have h1 : openmc_runs files =
        (true, make_omc_input files ++ ["statepoint.out.binary"]) := by
      unfold openmc_runs
      rw [hf]
    rw [h1]
    constructor
    · constructor
      · intro _ f hfm
        have hn := List.find?_eq_none.mp hf f
          ((mem_foldl_writeFile omcInputNames files f).mpr (Or.inl hfm))
        simp only [] at hn
        exact bool_eq_false hn
      · intro _
        rfl
    · intro h
      exact absurd h (by simp)

/-- One dict update of the trans_matrix loop of `BrightliteWriter.write`
(brightlite.py:42-50) for one composition entry at step i: if the nuclide is
already tracked, append value*1000 to its history; otherwise start a history
(zeros for all earlier steps, then value*1000) only when the value exceeds
the tracking threshold.  Nuclide keys stand for the `nucname.name` strings
(the renaming is injective and omitted). -/
def tmInsert (θ : ℚ) (i : Nat) (tm : List (Nat × List ℚ)) (nuc : Nat) (v : ℚ) :
    List (Nat × List ℚ) :=
  match alookup tm nuc with
  | some h => aset tm nuc (h ++ [v * 1000])
  | none =>
    if θ < v then tm ++ [(nuc, List.replicate i 0 ++ [v * 1000])] else tm

/-- The inner `for temp_nuc in ...comp` loop (brightlite.py:42-50). -/
def stepComp (θ : ℚ) (i : Nat) (tm : List (Nat × List ℚ)) (c : Material) :
    List (Nat × List ℚ) :=
  c.foldl (fun tm2 p => tmInsert θ i tm2 p.1 p.2) tm

/-- The outer `while i < len(...)` loop (brightlite.py:40-51). -/
def tmLoop (θ : ℚ) : Nat → List (Nat × List ℚ) → List Material → List (Nat × List ℚ)
  | _, tm, [] => tm
  | i, tm, c :: cs => tmLoop θ (i + 1) (stepComp θ i tm c) cs

/-- The complete trans_matrix construction of `BrightliteWriter.write` over
the per-step material compositions. -/
def transMatrix (θ : ℚ) (mats : List Material) : List (Nat × List ℚ) :=
  tmLoop θ 0 [] mats

theorem alookup_nil {κ α : Type} [DecidableEq κ] (k : κ) :
    alookup ([] : List (κ × α)) k = none := rfl

theorem alookup_cons {κ α : Type} [DecidableEq κ] (p : κ × α) (l : List (κ × α)) (k : κ) :
    alookup (p :: l) k = if p.1 = k then some p.2 else alookup l k := by
  unfold alookup
  rw [List.find?_cons]
  by_cases h : p.1 = k
  · simp [h]
  · simp [h]

theorem alookup_eq_none_iff {κ α : Type} [DecidableEq κ] (l : List (κ × α)) (k : κ) :
    alookup l k = none ↔ ∀ p ∈ l, p.1 ≠ k := by
  induction l with
  | nil => simp [alookup_nil]
  | cons p rest ih =>
    rw [alookup_cons]
    by_cases h : p.1 = k
    · simp [h]
    · simp [h, ih]

theorem alookup_aset_self {κ α : Type} [DecidableEq κ] :
    ∀ (l : List (κ × α)) (k : κ) (v0 v : α),
      alookup l k = some v0 → alookup (aset l k v) k = some v := by
  intro l
  induction l with
  | nil => intro k v0 v h; simp [alookup_nil] at h
  | cons p rest ih =>
    intro k v0 v h
    rw [alookup_cons] at h
    unfold aset
    by_cases hp : p.1 = k
    · rw [if_pos hp, alookup_cons]
      simp
    · rw [if_neg hp, alookup_cons, if_neg hp]
      rw [if_neg hp] at h
      exact ih k v0 v h

theorem alookup_aset_ne {κ α : Type} [DecidableEq κ] :
    ∀ (l : List (κ × α)) (k k2 : κ) (v : α), k2 ≠ k →
      alookup (aset l k v) k2 = alookup l k2 := by
  intro l
  induction l with
  | nil => intro k k2 v _; rfl
  | cons p rest ih =>
    intro k k2 v hne
    unfold aset
    by_cases hp : p.1 = k
    · rw [if_pos hp, alookup_cons, alookup_cons]
      have : ¬ (k = k2) := fun h => hne h.symm
      rw [if_neg this, if_neg (by rw [hp]; exact this)]
    · rw [if_neg hp, alookup_cons, alookup_cons]
      by_cases hp2 : p.1 = k2
      · rw [if_pos hp2, if_pos hp2]
      · rw [if_neg hp2, if_neg hp2]
        exact ih k k2 v hne

theorem alookup_append_sing_ne {κ α : Type} [DecidableEq κ]
    (l : List (κ × α)) (k k2 : κ) (v : α) (hne : k2 ≠ k) :
    alookup (l ++ [(k, v)]) k2 = alookup l k2 := by
  induction l with
  | nil =>
    rw [List.nil_append, alookup_cons, alookup_nil]
    exact if_neg (fun h => hne h.symm)
  | cons p rest ih =>
    rw [List.cons_append, alookup_cons, alookup_cons]
    by_cases hp : p.1 = k2
    · rw [if_pos hp, if_pos hp]
    · rw [if_neg hp, if_neg hp]
      exact ih

theorem alookup_append_sing_self {κ α : Type} [DecidableEq κ]
    (l : List (κ × α)) (k : κ) (v : α) (h : alookup l k = none) :
    alookup (l ++ [(k, v)]) k = some v := by
  induction l with
  | nil => simp [alookup_cons]
  | cons p rest ih =>
    rw [alookup_cons] at h
    rw [List.cons_append, alookup_cons]
    by_cases hp : p.1 = k
    · rw [if_pos hp] at h
      exact Option.noConfusion h
    · rw [if_neg hp] at h ⊢
      exact ih h

theorem alookup_tmInsert_ne (θ : ℚ) (i : Nat) (tm : List (Nat × List ℚ))
    (nuc ν : Nat) (v : ℚ) (hne : nuc ≠ ν) :
    alookup (tmInsert θ i tm nuc v) ν = alookup tm ν := by
  unfold tmInsert
  cases hl : alookup tm nuc with
  | some h0 => exact alookup_aset_ne tm nuc ν _ (fun h => hne h.symm)
  | none =>
    by_cases hv : θ < v
    · rw [if_pos hv]
      exact alookup_append_sing_ne tm nuc ν _ (fun h => hne h.symm)
    · rw [if_neg hv]

theorem alookup_tmInsert_self_some (θ : ℚ) (i : Nat) (tm : List (Nat × List ℚ))
    (ν : Nat) (v : ℚ) (h0 : List ℚ) (h : alookup tm ν = some h0) :
    alookup (tmInsert θ i tm ν v) ν = some (h0 ++ [v * 1000]) := by
  have hred : tmInsert θ i tm ν v = aset tm ν (h0 ++ [v * 1000]) := by
    unfold tmInsert
    rw [h]
  rw [hred]
  exact alookup_aset_self tm ν h0 _ h

theorem alookup_tmInsert_self_none (θ : ℚ) (i : Nat) (tm : List (Nat × List ℚ))
    (ν : Nat) (v : ℚ) (h : alookup tm ν = none) :
    alookup (tmInsert θ i tm ν v) ν =
      (if θ < v then some (List.replicate i 0 ++ [v * 1000]) else none) := by
  have hred : tmInsert θ i tm ν v =
      (if θ < v then tm ++ [(ν, List.replicate i 0 ++ [v * 1000])] else tm) := by
    unfold tmInsert
    rw [h]
  rw [hred]
  by_cases hv : θ < v
  · rw [if_pos hv, if_pos hv]
    exact alookup_append_sing_self tm ν _ h
  · rw [if_neg hv, if_neg hv]
    exact h

theorem stepComp_not_mem (θ : ℚ) (i : Nat) (ν : Nat) :
    ∀ (c : Material) (tm : List (Nat × List ℚ)), (∀ p ∈ c, p.1 ≠ ν) →
      alookup (stepComp θ i tm c) ν = alookup tm ν := by
  intro c
  induction c with
  | nil => intro tm _; rfl
  | cons p rest ih =>
    intro tm hc
    show alookup (stepComp θ i (tmInsert θ i tm p.1 p.2) rest) ν = alookup tm ν
    rw [ih (tmInsert θ i tm p.1 p.2) (fun q hq => hc q (List.mem_cons_of_mem p hq))]
    exact alookup_tmInsert_ne θ i tm p.1 ν p.2 (hc p (List.mem_cons_self p rest))

theorem stepComp_mem_some (θ : ℚ) (i : Nat) (ν : Nat) :
    ∀ (c : Material) (tm : List (Nat × List ℚ)) (v : ℚ) (h0 : List ℚ),
      (c.map Prod.fst).Nodup → alookup c ν = some v → alookup tm ν = some h0 →
      alookup (stepComp θ i tm c) ν = some (h0 ++ [v * 1000]) := by
  intro c
  induction c with
  | nil => intro tm v h0 _ hc _; simp [alookup_nil] at hc
  | cons p rest ih =>
    intro tm v h0 hnd hc htm
    rw [alookup_cons] at hc
    have hnd2 : (rest.map Prod.fst).Nodup := (List.nodup_cons.mp (by simpa using hnd)).2
    by_cases hp : p.1 = ν
    · rw [if_pos hp] at hc
      have hrest : ∀ q ∈ rest, q.1 ≠ ν := by
        intro q hq hqν
        have hpmem : p.1 ∈ rest.map Prod.fst :=
          List.mem_map.mpr ⟨q, hq, by rw [hqν, hp]⟩
        exact (List.nodup_cons.mp (by simpa using hnd)).1 hpmem
      show alookup (stepComp θ i (tmInsert θ i tm p.1 p.2) rest) ν = _
      rw [stepComp_not_mem θ i ν rest _ hrest]
      rw [hp]
      rw [alookup_tmInsert_self_some θ i tm ν p.2 h0 htm]
      rw [Option.some.injEq] at hc
      rw [hc]
    · rw [if_neg hp] at hc
      show alookup (stepComp θ i (tmInsert θ i tm p.1 p.2) rest) ν = _
      refine ih (tmInsert θ i tm p.1 p.2) v h0 hnd2 hc ?_
      rw [alookup_tmInsert_ne θ i tm p.1 ν p.2 hp]
      exact htm

theorem stepComp_mem_none (θ : ℚ) (i : Nat) (ν : Nat) :
    ∀ (c : Material) (tm : List (Nat × List ℚ)) (v : ℚ),
      (c.map Prod.fst).Nodup → alookup c ν = some v → alookup tm ν = none →
      alookup (stepComp θ i tm c) ν =
        (if θ < v then some (List.replicate i 0 ++ [v * 1000]) else none) := by
  intro c
  induction c with
  | nil => intro tm v _ hc _; simp [alookup_nil] at hc
  | cons p rest ih =>
    intro tm v hnd hc htm
    rw [alookup_cons] at hc
    have hnd2 : (rest.map Prod.fst).Nodup := (List.nodup_cons.mp (by simpa using hnd)).2
    by_cases hp : p.1 = ν
    · rw [if_pos hp] at hc
      have hrest : ∀ q ∈ rest, q.1 ≠ ν := by
        intro q hq hqν
        have hpmem : p.1 ∈ rest.map Prod.fst :=
          List.mem_map.mpr ⟨q, hq, by rw [hqν, hp]⟩
        exact (List.nodup_cons.mp (by simpa using hnd)).1 hpmem
      show alookup (stepComp θ i (tmInsert θ i tm p.1 p.2) rest) ν = _
      rw [stepComp_not_mem θ i ν rest _ hrest]
      rw [hp]
      rw [alookup_tmInsert_self_none θ i tm ν p.2 htm]
      rw [Option.some.injEq] at hc
      rw [hc]
    · rw [if_neg hp] at hc
      show alookup (stepComp θ i (tmInsert θ i tm p.1 p.2) rest) ν = _
      refine ih (tmInsert θ i tm p.1 p.2) v hnd2 hc ?_
      rw [alookup_tmInsert_ne θ i tm p.1 ν p.2 hp]
      exact htm

theorem tmLoop_absent (θ : ℚ) (ν : Nat) :
    ∀ (cs : List Material) (i : Nat) (tm : List (Nat × List ℚ)),
      alookup tm ν = none →
      (∀ c ∈ cs, (c.map Prod.fst).Nodup ∧ ∀ v, alookup c ν = some v → ¬ θ < v) →
      alookup (tmLoop θ i tm cs) ν = none := by
  intro cs
  induction cs with
  | nil => intro i tm htm _; exact htm
  | cons c rest ih =>
    intro i tm htm hcs
    show alookup (tmLoop θ (i + 1) (stepComp θ i tm c) rest) ν = none
    refine ih (i + 1) _ ?_ (fun c2 h2 => hcs c2 (List.mem_cons_of_mem c h2))
    cases hc : alookup c ν with
    | none =>
      rw [stepComp_not_mem θ i ν c tm ((alookup_eq_none_iff c ν).mp hc)]
      exact htm
    | some v =>
      rw [stepComp_mem_none θ i ν c tm v (hcs c (List.mem_cons_self c rest)).1 hc htm]
      exact if_neg ((hcs c (List.mem_cons_self c rest)).2 v hc)

theorem tmLoop_present (θ : ℚ) (ν : Nat) :
    ∀ (cs : List Material) (i : Nat) (tm : List (Nat × List ℚ)) (h0 : List ℚ),
      alookup tm ν = some h0 →
      (∀ c ∈ cs, (c.map Prod.fst).Nodup ∧ (alookup c ν).isSome = true) →
      alookup (tmLoop θ i tm cs) ν =
        some (h0 ++ cs.map (fun c => (alookup c ν).getD 0 * 1000)) := by
  intro cs
  induction cs with
  | nil => intro i tm h0 htm _; simpa using htm
  | cons c rest ih =>
    intro i tm h0 htm hcs
    obtain ⟨v, hv⟩ := Option.isSome_iff_exists.mp (hcs c (List.mem_cons_self c rest)).2
    show alookup (tmLoop θ (i + 1) (stepComp θ i tm c) rest) ν = _
    rw [ih (i + 1) (stepComp θ i tm c) (h0 ++ [v * 1000])
      (stepComp_mem_some θ i ν c tm v h0 (hcs c (List.mem_cons_self c rest)).1 hv htm)
      (fun c2 h2 => hcs c2 (List.mem_cons_of_mem c h2))]
    rw [List.map_cons, hv]
    simp

theorem tmLoop_append (θ : ℚ) :
    ∀ (l1 l2 : List Material) (i : Nat) (tm : List (Nat × List ℚ)),
      tmLoop θ i tm (l1 ++ l2) = tmLoop θ (i + l1.length) (tmLoop θ i tm l1) l2 := by
  intro l1
  induction l1 with
  | nil => intro l2 i tm; simp [tmLoop]
  | cons c rest ih =>
    intro l2 i tm
    show tmLoop θ (i + 1) (stepComp θ i tm c) (rest ++ l2) = _
    rw [ih l2 (i + 1) (stepComp θ i tm c)]
    have harith : i + 1 + rest.length = i + (c :: rest).length := by
      simp
      omega
    rw [harith]
    rfl

/-- C6 (amended): in the writer's transmutation matrix, a nuclide whose
composition value first exceeds the tracking threshold at step k (= the
number of earlier steps) receives zero entries for steps 0..k-1 and
1000 times its composition value for every step from k on — provided it
stays present in every later step's composition — and then its history has
exactly one entry per step of the run. -/
theorem trans_matrix_backfill (θ : ℚ) (ν : Nat) (pre : List Material)
    (ck : Material) (post : List Material) (vk : ℚ)
    (hpre : ∀ c ∈ pre, (c.map Prod.fst).Nodup ∧ ∀ v, alookup c ν = some v → ¬ θ < v)
    (hck : (ck.map Prod.fst).Nodup) (hvk : alookup ck ν = some vk) (hθ : θ < vk)
    (hpost : ∀ c ∈ post, (c.map Prod.fst).Nodup ∧ (alookup c ν).isSome = true) :
    alookup (transMatrix θ (pre ++ ck :: post)) ν =
      some (List.replicate pre.length 0 ++
        (ck :: post).map (fun c => (alookup c ν).getD 0 * 1000)) ∧
    (List.replicate pre.length 0 ++
      (ck :: post).map (fun c => (alookup c ν).getD 0 * 1000)).length =
      (pre ++ ck :: post).length := by
  constructor
  · unfold transMatrix
    rw [tmLoop_append]
    have habs : alookup (tmLoop θ 0 [] pre) ν = none :=
      tmLoop_absent θ ν pre 0 [] rfl hpre
    show alookup (tmLoop θ (0 + pre.length + 1)
      (stepComp θ (0 + pre.length) (tmLoop θ 0 [] pre) ck) post) ν = _
    have hstep := stepComp_mem_none θ (0 + pre.length) ν ck (tmLoop θ 0 [] pre) vk
      hck hvk habs
    rw [if_pos hθ] at hstep
    rw [tmLoop_present θ ν post (0 + pre.length + 1) _ _ hstep hpost]
    rw [List.map_cons, hvk]
    simp [List.append_assoc]
  · simp

/-- C6 (counterexample to the claim as stated): nuclide 1 exceeds the
threshold 0 at step 0 of a two-step run but is absent from step 1's
composition; its history is [1*1000], of length 1 instead of the claimed
run length 2, and the entry is 1000 times the composition value rather
than the value itself. -/
theorem trans_matrix_short_history :
    alookup (transMatrix 0 [[(1, 1)], []]) 1 = some [1 * 1000] ∧
    [(1 : ℚ) * 1000].length ≠ ([[(1, 1)], []] : List Material).length ∧
    ((1 : ℚ) * 1000 ≠ 1) :=
  ⟨rfl, by decide, by norm_num⟩

/-- Witness for C6's amended theorem: threshold 0, nuclide 1 present below
threshold at step 0, first exceeding at step 1, present at step 2. -/
theorem trans_matrix_backfill_witness :
    alookup (transMatrix 0 ([[(1, 0)]] ++ [(1, 1)] :: [[(1, 2)]])) 1 =
      some (List.replicate ([[(1, 0)]] : List Material).length 0 ++
        ([(1, 1)] :: [[(1, 2)]] : List Material).map
          (fun c => (alookup c 1).getD 0 * 1000)) ∧
    (List.replicate ([[(1, 0)]] : List Material).length 0 ++
      ([(1, 1)] :: [[(1, 2)]] : List Material).map
        (fun c => (alookup c 1).getD 0 * 1000)).length =
      ([[(1, 0)]] ++ [(1, 1)] :: [[(1, 2)]] : List Material).length :=
  trans_matrix_backfill 0 1 [[(1, 0)]] [(1, 1)] [[(1, 2)]] 1
    (by
      intro c hc
      rw [List.mem_singleton] at hc
      subst hc
      refine ⟨by decide, ?_⟩
      intro v hv
      have hv2 : some (0 : ℚ) = some v := hv
      rw [← Option.some.inj hv2]
      norm_num)
    (by decide) rfl (by norm_num) (by decide)

/-- Witness for C8 at a directory listing holding an old statepoint. -/
theorem openmc_runs_iff_witness :
    (((openmc_runs ["statepoint.10.binary"]).1 = true ↔
       ∀ f ∈ ["statepoint.10.binary"], startswith f "statepoint" = false) ∧
     ((openmc_runs ["statepoint.10.binary"]).1 = false →
       (openmc_runs ["statepoint.10.binary"]).2 =
         make_omc_input ["statepoint.10.binary"])) :=
  openmc_runs_iff ["statepoint.10.binary"]

/-- Witness for C9 at two states of unequal arity. -/
theorem same_except_error_iff_witness :
    ((∃ msg, same_except_burnup_time sA ⟨["x"], [1, 2, 3]⟩ = Except.error msg) ↔
      sA.vals.length ≠ (⟨["x"], [1, 2, 3]⟩ : State).vals.length) :=
  same_except_error_iff sA ⟨["x"], [1, 2, 3]⟩

/-- Positional arguments of the call `rc.engine.generate_run(run, fname)`
in `XSGenPlugin.execute` (buk.py:141). -/
inductive GenRunArg where
  | runArg (r : List State)
  | strArg (s : String)

/-- Python call semantics for `OpenMCOrigen.generate_run`
(openmc_origen.py:174), which accepts exactly one positional argument
besides `self`: any other argument list raises a TypeError before the body
runs. -/
def call_generate_run (env : Env) (st : EngineSt) (args : List GenRunArg) :
    Except PyErr RunLib × EngineSt :=
  match args with
  | [GenRunArg.runArg r] =>
    match generate_run env st r with
    | (res, st2, _) => (res, st2)
  | _ =>
    (Except.error (PyErr.typeErr
      "generate_run() takes 2 positional arguments but 3 were given"), st)

/-- The library-generation loop of `XSGenPlugin.execute` (buk.py:138-145):
for each run, build `fname` from the base path and the run index and call
`rc.engine.generate_run(run, fname)` — with two arguments; deliver the
produced library to the writers (modelled as a list of (fname, library)
deliveries).  An exception aborts the loop with no further deliveries. -/
def executeRuns (env : Env) :
    EngineSt → Nat → String → List (List State) →
      Except PyErr Unit × List (String × RunLib)
  | _, _, _, [] => (Except.ok (), [])
  | st, run_num, basepath, r :: rest =>
    match call_generate_run env st
        [GenRunArg.runArg r, GenRunArg.strArg (basepath ++ toString run_num)] with
    | (Except.error e, _) => (Except.error e, [])
    | (Except.ok libs, st2) =>
      match executeRuns env st2 (run_num + 1) basepath rest with
      | (res, writes) =>
        (res, (basepath ++ toString run_num, libs) :: writes)

/-- `XSGenPlugin.execute` (buk.py:114-145): group the states into runs, then
generate and write a library per run. -/
def execute (env : Env) (st : EngineSt) (states : List State) (basepath : String) :
    Except PyErr Unit × List (String × RunLib) :=
  match groupStates states with
  | Except.error msg => (Except.error (PyErr.valueErr msg), [])
  | Except.ok runs => executeRuns env st 0 basepath runs

/-- C10: whenever grouping yields at least one (necessarily non-empty) run,
`execute` raises the TypeError from calling `generate_run` with two
arguments, and no library is ever delivered to a writer. -/
theorem execute_type_error (env : Env) (st : EngineSt) (states : List State)
    (basepath : String) (runs : List (List State))
    (hg : groupStates states = Except.ok runs) (hne : ∃ r ∈ runs, r ≠ []) :
    execute env st states basepath =
      (Except.error (PyErr.typeErr
        "generate_run() takes 2 positional arguments but 3 were given"), []) := by
  unfold execute
  rw [hg]
  obtain ⟨r, hr, -⟩ := hne
  cases runs with
  | nil => exact absurd hr (List.not_mem_nil r)
  | cons r0 rest => rfl

/-- Witness for C10 at a one-state input. -/
theorem execute_type_error_witness :
    groupStates [sA] = Except.ok [[sA]] ∧
    (∃ r ∈ [[sA]], r ≠ []) ∧
    execute env0 st0 [sA] "build-lwr/brightlite" =
      (Except.error (PyErr.typeErr
        "generate_run() takes 2 positional arguments but 3 were given"), []) :=
  ⟨by decide, by decide,
   execute_type_error env0 st0 [sA] "build-lwr/brightlite" [[sA]] (by decide) (by decide)⟩

end Xsgen
